import Mathlib

/-!
# Verification of the documentation-build scripts

A shallow embedding, in Lean 4, of the Python documentation-build utilities
of this repository:

* `scripts/generate-api-simple.py` (single-pass generator),
* `scripts/generate-versioned-api-docs.py` (versioned generator),
* `scripts/create-fallback-api.py` (fallback generator),
* `scripts/validate-deployment.py` (deployment validator).

Python strings are modelled as `List Char`; `xml.etree` elements are
modelled by records carrying exactly the attributes and sub-elements the
scripts consult.  A missing element or missing text is an `Option` value.
Fallible processing returns `Option`/`Bool` results in place of Python
exceptions caught by the scripts.  The one floating-point comparison in the
sources (`documented / total < 0.3`) is modelled with exact rational
arithmetic.
-/

/-! ## Python string primitives -/

/-- ASCII whitespace as recognised by Python's `str.strip` / `str.split` and
by the regex class `\s`: space, tab, newline, carriage return, vertical tab,
form feed. -/
def isPyWs (c : Char) : Bool :=
  c = ' ' || c = '\t' || c = '\n' || c = '\r' || c = '\x0b' || c = '\x0c'

/-- `lstarts p s` is true when the list `p` is an initial segment of `s`
(Python `s.startswith(p)`). -/
def lstarts : List Char → List Char → Bool
  | [], _ => true
  | _ :: _, [] => false
  | p :: ps, c :: cs => p = c && lstarts ps cs

/-- `containsSub pat s` is true when `pat` occurs contiguously inside `s`
(Python `pat in s`). -/
def containsSub (pat : List Char) : List Char → Bool
  | [] => lstarts pat []
  | c :: rest => lstarts pat (c :: rest) || containsSub pat rest

/-- Python `s.strip()`: remove leading and trailing whitespace. -/
def pyStrip (s : List Char) : List Char :=
  ((s.dropWhile isPyWs).reverse.dropWhile isPyWs).reverse

/-- Python `s.rsplit('.', 1)[0]`: everything before the last dot, or `s`
itself when `s` contains no dot. -/
def rsplitDotHead (s : List Char) : List Char :=
  if '.' ∈ s then ((s.reverse.dropWhile (fun c => c ≠ '.')).tail).reverse else s

/-- Python `'.'.join(s.split('.')[:-1])`: everything before the last dot, or
the empty string when `s` contains no dot. -/
def beforeLastDot (s : List Char) : List Char :=
  if '.' ∈ s then ((s.reverse.dropWhile (fun c => c ≠ '.')).tail).reverse else []

/-! ## Owning-type prefix extraction for method members

`generate-api-simple.py`, `create_assembly_docs`, lines 59-67: a method
qualified name containing `(` is cut at the first `(` and the remainder is
split at its last dot; otherwise the name is cut at `#` when present, else
split at its last dot.  `generate-versioned-api-docs.py`,
`process_xml_file`, lines 179-186: the name is cut at the first `(` when
present, then everything before the last dot is taken (via
`'.'.join(name.split('.')[:-1])`). -/

/-- Owning-type prefix of a method member name, as computed by
`generate-api-simple.py` lines 59-67. -/
def typePrefixSimple (m : List Char) : List Char :=
  if '(' ∈ m then rsplitDotHead (m.takeWhile (fun c => c ≠ '('))
  else if '#' ∈ m then m.takeWhile (fun c => c ≠ '#')
  else rsplitDotHead m

/-- Parent-type name of a method member, as computed by
`generate-versioned-api-docs.py` lines 183-185. -/
def typePrefixVersioned (m : List Char) : List Char :=
  beforeLastDot (if '(' ∈ m then m.takeWhile (fun c => c ≠ '(') else m)

/-! ## Text extraction

`clean_text` (generate-api-simple.py lines 12-16) and `clean_xml_text`
(generate-versioned-api-docs.py lines 49-63). -/

/-- The backtick character (code point 96), target of the Markdown
code-span rewrites in `clean_xml_text`. -/
def tick : Char := Char.ofNat 96

/-- Accumulator pass of Python `s.split()`: `acc` holds the reversed
characters of the word currently being read; a whitespace character closes
the current word, anything else extends it. -/
def splitWsAux : List Char → List Char → List (List Char)
  | acc, [] => if acc.isEmpty then [] else [acc.reverse]
  | acc, c :: rest =>
    if isPyWs c then
      if acc.isEmpty then splitWsAux [] rest
      else acc.reverse :: splitWsAux [] rest
    else splitWsAux (c :: acc) rest

/-- Python `s.split()`: the maximal whitespace-free words of `s`, in
order. -/
def splitWs (s : List Char) : List (List Char) := splitWsAux [] s

/-- Python `' '.join(ws)`. -/
def joinSpace : List (List Char) → List Char
  | [] => []
  | w :: ws =>
    match ws with
    | [] => w
    | _ :: _ => w ++ ' ' :: joinSpace ws

/-- The placeholder text returned by `clean_text` for missing input. -/
def noDescription : List Char := "No description available".data

/-- `clean_text` from generate-api-simple.py lines 12-16: falsy input (a
missing text or the empty string) yields the placeholder; otherwise the
text is stripped, split on whitespace and re-joined with single spaces. -/
def clean_text (t : Option (List Char)) : List Char :=
  match t with
  | none => noDescription
  | some s => if s.isEmpty then noDescription else joinSpace (splitWs (pyStrip s))

/-- `re.sub(r"\s+", " ", s)`: replace every maximal whitespace run by a
single space. -/
def collapseWs : List Char → List Char
  | [] => []
  | c :: rest =>
    if isPyWs c then ' ' :: collapseWs (rest.dropWhile isPyWs)
    else c :: collapseWs rest
termination_by s => s.length
decreasing_by
  · have hsub : (rest.dropWhile isPyWs).Sublist rest := List.dropWhile_sublist _
    have := hsub.length_le
    simp only [List.length_cons]
    omega
  · simp

/-- Python `s.replace(pat, rep)` for non-empty `pat`: leftmost,
non-overlapping replacement of every occurrence.  (On an empty pattern this
model returns `s` unchanged; every pattern used by the scripts is
non-empty.) -/
def replaceAll (pat rep : List Char) : List Char → List Char
  | [] => []
  | c :: rest =>
    if h : pat.isEmpty then c :: rest
    else if lstarts pat (c :: rest) then
      rep ++ replaceAll pat rep ((c :: rest).drop pat.length)
    else c :: replaceAll pat rep rest
termination_by s => s.length
decreasing_by
  · have hp : pat ≠ [] := by simpa [List.isEmpty_iff] using h
    have h1 : 1 ≤ pat.length := List.length_pos.mpr hp
    simp only [List.length_drop, List.length_cons]
    omega
  · simp

/-- One substitution `re.sub(pre ++ "([^\"]+)" ++ suf, backtick-wrapped
group, s)` where `pre` and `suf` are literal strings and `suf` begins with
the closing quote of the capture: the shape of the `see cref` and
`paramref` rewrites in `clean_xml_text`.  The scan is leftmost and
non-overlapping, as in `re.sub`. -/
def scanCapture (pre suf : List Char) : List Char → List Char
  | [] => []
  | c :: rest =>
    if lstarts pre (c :: rest) then
      let s1 := (c :: rest).drop pre.length
      let cap := s1.takeWhile (fun d => !(d = '"'))
      if h : cap.isEmpty then c :: scanCapture pre suf rest
      else if lstarts suf (s1.drop cap.length) then
        tick :: (cap ++ tick :: scanCapture pre suf ((s1.drop cap.length).drop suf.length))
      else c :: scanCapture pre suf rest
    else c :: scanCapture pre suf rest
termination_by s => s.length
decreasing_by
  · simp
  · have hc : ¬cap = [] := by simpa [List.isEmpty_iff] using h
    have h1 : 0 < cap.length := List.length_pos.mpr hc
    have h2 : cap.length ≤ s1.length := (List.takeWhile_sublist (fun d => !(d = '"'))).length_le
    have h3 : s1.length = rest.length + 1 - pre.length := by
      simp [s1, List.length_drop]
    have h4 : cap.length =
        (List.takeWhile (fun d => !(d = '"')) (List.drop pre.length (c :: rest))).length := rfl
    simp only [List.length_drop, List.length_cons]
    omega
  · simp

/-- generate-versioned-api-docs.py line 56: escape angle brackets,
`text.replace('<', '&lt;').replace('>', '&gt;')`. -/
def escapeStage (s : List Char) : List Char :=
  replaceAll ['>'] "&gt;".data (replaceAll ['<'] "&lt;".data s)

/-- generate-versioned-api-docs.py line 58: rewrite the escaped `<c>` and
`</c>` tags to backticks. -/
def ctagStage (s : List Char) : List Char :=
  replaceAll "&lt;/c&gt;".data [tick] (replaceAll "&lt;c&gt;".data [tick] s)

/-- generate-versioned-api-docs.py lines 59-61: the three `see cref`
substitutions, for the `T:`, `M:` and `P:` kinds in source order. -/
def crefStage (s : List Char) : List Char :=
  scanCapture "&lt;see cref=\"P:".data "\"/&gt;".data
    (scanCapture "&lt;see cref=\"M:".data "\"/&gt;".data
      (scanCapture "&lt;see cref=\"T:".data "\"/&gt;".data s))

/-- `clean_xml_text` from generate-versioned-api-docs.py lines 49-63: falsy
input yields the empty string; otherwise strip, collapse whitespace runs,
escape `<` and `>` to `&lt;` and `&gt;`, then rewrite the escaped doc tags
`<c>`, `</c>`, `<see cref="K:..."/>` (K among T, M, P) and
`<paramref name="..."/>` to Markdown code spans, in source order. -/
def clean_xml_text (t : Option (List Char)) : List Char :=
  match t with
  | none => []
  | some s =>
    if s.isEmpty then []
    else
      scanCapture "&lt;paramref name=\"".data "\"/&gt;".data
        (crefStage (ctagStage (escapeStage (collapseWs (pyStrip s)))))

/-! ## Per-member text extraction

An XML sub-element is modelled as `Option (Option (List Char))`: `none` is
a missing element, `some t` a present element whose `.text` is `t` (itself
`none` when the element has no text). -/

/-- The argument handed to the cleaner for an optional sub-element: the
element's text when present, the empty string otherwise (the pattern
`elem.text if elem is not None else ""` of both generators). -/
def elemTextOrEmpty (e : Option (Option (List Char))) : Option (List Char) :=
  match e with
  | none => some []
  | some t => t

/-- Summary extraction in generate-api-simple.py lines 35-36. -/
def summarySimple (e : Option (Option (List Char))) : List Char :=
  clean_text (elemTextOrEmpty e)

/-- Remarks extraction in generate-api-simple.py line 43. -/
def remarksSimple (e : Option (Option (List Char))) : List Char :=
  clean_text (elemTextOrEmpty e)

/-- Return-value extraction in generate-api-simple.py lines 80-81. -/
def returnsSimple (e : Option (Option (List Char))) : List Char :=
  clean_text (elemTextOrEmpty e)

/-- Parameter-description extraction in generate-api-simple.py line 76:
`clean_text(param.text if param.text else "")` for a present `param`
element with text `pt`. -/
def paramDescSimple (pt : Option (List Char)) : List Char :=
  clean_text (some (match pt with
    | some t => if t.isEmpty then [] else t
    | none => []))

/-- Summary extraction in generate-versioned-api-docs.py lines 93-94. -/
def summaryVersioned (e : Option (Option (List Char))) : List Char :=
  clean_xml_text (elemTextOrEmpty e)

/-- Remarks extraction in generate-versioned-api-docs.py lines 97-98. -/
def remarksVersioned (e : Option (Option (List Char))) : List Char :=
  clean_xml_text (elemTextOrEmpty e)

/-- Return-value extraction in generate-versioned-api-docs.py lines 118-119. -/
def returnsVersioned (e : Option (Option (List Char))) : List Char :=
  clean_xml_text (elemTextOrEmpty e)

/-- Parameter-description extraction in generate-versioned-api-docs.py line
113: `clean_xml_text(param.text or '')`. -/
def paramDescVersioned (pt : Option (List Char)) : List Char :=
  clean_xml_text (some (match pt with
    | some t => if t.isEmpty then [] else t
    | none => []))

/-! ## Member classification

`create_assembly_docs` (generate-api-simple.py lines 33-101) branches on
the `name` attribute's prefix with `T:` / `M:` / `P:` branches only;
`process_xml_file` (generate-versioned-api-docs.py lines 157-209) has `T:`
/ `M:` / `P:` / `F:` branches.  In both, a member whose prefix matches no
branch falls through the `elif` chain and is skipped. -/

/-- The member kinds that produce an entry in generate-api-simple.py. -/
inductive SimpleKind
  | type
  | method
  | prop
deriving DecidableEq, Repr

/-- The member kinds that produce an entry in
generate-versioned-api-docs.py. -/
inductive VersionedKind
  | type
  | method
  | prop
  | field
deriving DecidableEq, Repr

/-- Classification of a member's `name` attribute by generate-api-simple.py
(lines 38, 55, 90): the entry kind and the qualified name with its
two-character prefix removed, or `none` for an unrecognized prefix. -/
def classifySimple (name : List Char) : Option (SimpleKind × List Char) :=
  if lstarts "T:".data name then some (.type, name.drop 2)
  else if lstarts "M:".data name then some (.method, name.drop 2)
  else if lstarts "P:".data name then some (.prop, name.drop 2)
  else none

/-- Classification of a member's `name` attribute by
generate-versioned-api-docs.py (lines 160, 179, 191, 201 together with the
prefix stripping of `process_member`, line 90). -/
def classifyVersioned (name : List Char) : Option (VersionedKind × List Char) :=
  if lstarts "T:".data name then some (.type, name.drop 2)
  else if lstarts "M:".data name then some (.method, name.drop 2)
  else if lstarts "P:".data name then some (.prop, name.drop 2)
  else if lstarts "F:".data name then some (.field, name.drop 2)
  else none

/-- The documentation entries produced by one pass of
generate-api-simple.py over the `name` attributes of a file's members. -/
def entriesSimple (names : List (List Char)) : List (SimpleKind × List Char) :=
  names.filterMap classifySimple

/-- The documentation entries produced by generate-versioned-api-docs.py
over the `name` attributes of a file's members. -/
def entriesVersioned (names : List (List Char)) : List (VersionedKind × List Char) :=
  names.filterMap classifyVersioned

/-! ## The single-pass generator's main pipeline

`main` of generate-api-simple.py, lines 186-241. -/

/-- A `member` element as consulted by the quality check of `main`
(generate-api-simple.py lines 210-215): its `name` attribute and its
optional `summary` sub-element (whose `.text` may itself be missing). -/
structure MemberElem where
  name : List Char
  summary : Option (Option (List Char))
deriving DecidableEq, Repr

/-- A parsed documentation XML file: the text of the root's
`assembly/name` element when present, and its `member` elements.  A file
that is not well-formed XML has no such value (`Option XmlFile` below). -/
structure XmlFile where
  assemblyName : Option (List Char)
  members : List MemberElem
deriving DecidableEq, Repr

/-- The documented-member test of generate-api-simple.py line 214: the
member has a summary element with truthy text whose stripped length
exceeds 20 characters. -/
def isDocumented (m : MemberElem) : Bool :=
  match m.summary with
  | some (some t) => !t.isEmpty && decide (20 < (pyStrip t).length)
  | _ => false

/-- The number of documented members (generate-api-simple.py lines
210-215). -/
def documentedCount (ms : List MemberElem) : Nat := ms.countP isDocumented

/-- The "minimal documentation" condition of generate-api-simple.py line
218: a non-empty member list whose documented ratio is strictly below 0.3.
The Python float comparison `documented_count / len(members) < 0.3` is
modelled exactly over `ℚ` (for member counts of realistic size the float
and rational comparisons agree). -/
def lowQuality (f : XmlFile) : Bool :=
  decide (0 < f.members.length) &&
  decide ((documentedCount f.members : ℚ) / (f.members.length : ℚ) < 3 / 10)

/-- Result of `create_assembly_docs` (generate-api-simple.py lines 18-184)
on the parse attempt of one file: `false` when the XML failed to parse or
the root has no `assembly/name` element (the exception raised in either
case is caught on lines 182-184 and `False` is returned); `true` otherwise
— the rendering consults only optional sub-elements and cannot fail. -/
def createAssemblyDocs (p : Option XmlFile) : Bool :=
  match p with
  | none => false
  | some f => f.assemblyName.isSome

/-- Outcome of `main` on the parse results of the selected files. -/
inductive MainOutcome
  | blockedNoFiles
  | blockedLowQuality (lowq success : Nat)
  | blockedNoSuccess
  | completed (success : Nat)
deriving DecidableEq, Repr

/-- How many selected files fire the quality condition
(generate-api-simple.py lines 202-221; a file that fails to parse is
skipped there by the `except: pass`). -/
def lowQualityCount (files : List (Option XmlFile)) : Nat :=
  files.countP (fun p => match p with | some f => lowQuality f | none => false)

/-- How many selected files `create_assembly_docs` processes
successfully. -/
def successCount (files : List (Option XmlFile)) : Nat :=
  files.countP createAssemblyDocs

/-- `main` of generate-api-simple.py, lines 186-241: deployment is blocked
(exit status 1) when no files were selected, else when at least one
selected file fired the quality condition, else when no file was processed
successfully; otherwise the run writes the index and completes.  This
script has no fallback-content path. -/
def mainRun (files : List (Option XmlFile)) : MainOutcome :=
  if files.isEmpty then .blockedNoFiles
  else if 0 < lowQualityCount files then
    .blockedLowQuality (lowQualityCount files) (successCount files)
  else if successCount files = 0 then .blockedNoSuccess
  else .completed (successCount files)

/-- Process exit status of a `main` outcome: each blocked outcome calls
`sys.exit(1)`; completion exits normally with status 0. -/
def mainExitCode : MainOutcome → Nat
  | .completed _ => 0
  | _ => 1

/-- A globbed candidate file: its path and its parse result. -/
structure GlobFile where
  path : List Char
  parsed : Option XmlFile
deriving DecidableEq, Repr

/-- File selection of generate-api-simple.py line 190: paths containing
`/ref/` are excluded, then only the first 10 files are kept. -/
def selectFiles (g : List GlobFile) : List GlobFile :=
  (g.filter (fun f => !containsSub "/ref/".data f.path)).take 10

/-- The whole run of generate-api-simple.py `main` on a glob result. -/
def mainFromGlob (g : List GlobFile) : MainOutcome :=
  mainRun ((selectFiles g).map (fun f => f.parsed))

/-- A member whose summary text has stripped length above 20: counted as
documented by the quality check.  Concrete test fixture. -/
def docMember : MemberElem :=
  ⟨"M:A.B".data, some (some "This summary is definitely long enough.".data)⟩

/-- A member with a short summary: not counted as documented.  Concrete
test fixture. -/
def undocMember : MemberElem :=
  ⟨"M:A.C".data, some (some "short".data)⟩

/-- A parse result with `d` documented and `u` undocumented members. -/
def docFile (d u : Nat) : XmlFile :=
  ⟨some "TestAsm".data, List.replicate d docMember ++ List.replicate u undocMember⟩

/-! ## Render ordering of members within a type -/

/-- Python string order on code points: the comparison behind
`sorted(..., key=lambda x: x['name'])`. -/
def strLe : List Char → List Char → Bool
  | [], _ => true
  | _ :: _, [] => false
  | a :: as, b :: bs => if a = b then strLe as bs else decide (a < b)

/-- A collected member record as ordered by the renderers; the versioned
renderer's sort key is the full qualified `name`. -/
structure MemberInfo where
  name : List Char
  summary : List Char
deriving DecidableEq, Repr

/-- The order in which the versioned renderer emits the members of one
kind within a type (generate-versioned-api-docs.py lines 253, 264 and
296): `sorted(members, key=lambda x: x['name'])`, a stable sort by the
full qualified name. -/
def renderOrderVersioned (ms : List MemberInfo) : List MemberInfo :=
  ms.mergeSort (fun a b => strLe a.name b.name)

/-- The order in which the simple renderer emits the methods of a type
(generate-api-simple.py line 120): the first 15 collected methods, in
collection order, unsorted. -/
def renderOrderSimpleMethods (ms : List MemberInfo) : List MemberInfo :=
  ms.take 15

/-- The order in which the simple renderer emits the properties of a type
(generate-api-simple.py line 160): the first 5, in collection order. -/
def renderOrderSimpleProps (ms : List MemberInfo) : List MemberInfo :=
  ms.take 5

/-- The short (unqualified) member name used for display:
`name.split('.')[-1]`. -/
def shortName (n : List Char) : List Char :=
  (n.reverse.takeWhile (fun c => c ≠ '.')).reverse

/-! ## Deployment validator

validate-deployment.py, class `DeploymentValidator`. -/

/-- Existence and fallback-marker status of one per-assembly
`README.html`: `present` is the file's existence; `marker` is `none` when
reading the file raised (swallowed by the validator, lines 76-82) and
otherwise records whether the content contains "Fallback documentation". -/
structure AsmDoc where
  present : Bool
  marker : Option Bool
deriving DecidableEq, Repr

/-- Content classification of an "important page" by
`validate_content_quality` (lines 148-175): reading raised; length below
500; contains "Documentation in Progress"; or substantial. -/
inductive PageQ
  | readFail
  | short
  | placeholder
  | good
deriving DecidableEq, Repr

/-- The built-site facts consulted by validate-deployment.py: existence of
the build directory, of the five critical files (lines 40-46), of
`api/generated` and the three per-assembly pages, the navigation read of
`index.html` (`none` when reading raised, otherwise whether the 404
heuristic of line 119 holds), and the content classification of the three
important pages (each consulted only when the file exists; two of them are
also critical files, so their existence flags are shared). -/
structure SiteDist where
  dirExists : Bool
  indexHtml : Bool
  gettingStarted : Bool
  examplesIndex : Bool
  apiIndex : Bool
  hardwareIndex : Bool
  apiGenerated : Bool
  core : AsmDoc
  attrs : AsmDoc
  sync : AsmDoc
  navRead : Option Bool
  gettingStartedQ : PageQ
  firstConnection : Bool
  firstConnectionQ : PageQ
  apiIndexQ : PageQ
deriving DecidableEq, Repr

/-- The validator's messages; indexed messages carry the position in the
corresponding hardcoded list. -/
inductive VMsg
  | distMissing
  | criticalMissing (i : Nat)
  | apiDirMissing
  | asmMissing (i : Nat)
  | fallbackUsed (n : Nat)
  | navIndexMissing
  | navReadFail
  | nav404
  | contentReadFail (i : Nat)
  | contentShort (i : Nat)
  | contentPlaceholder (i : Nat)
deriving DecidableEq, Repr

/-- Errors of `validate_critical_files` (lines 36-53), in check order. -/
def criticalErrors (d : SiteDist) : List VMsg :=
  (if d.indexHtml then [] else [.criticalMissing 0]) ++
  (if d.gettingStarted then [] else [.criticalMissing 1]) ++
  (if d.examplesIndex then [] else [.criticalMissing 2]) ++
  (if d.apiIndex then [] else [.criticalMissing 3]) ++
  (if d.hardwareIndex then [] else [.criticalMissing 4])

/-- How many found assembly pages contain the fallback marker (lines
67-82; a read failure contributes nothing). -/
def fallbackCount (d : SiteDist) : Nat :=
  (if d.core.present && (d.core.marker == some true) then 1 else 0) +
  (if d.attrs.present && (d.attrs.marker == some true) then 1 else 0) +
  (if d.sync.present && (d.sync.marker == some true) then 1 else 0)

/-- Errors of `validate_api_documentation`: only a missing `api/generated`
directory is an error (lines 59-62). -/
def apiErrors (d : SiteDist) : List VMsg :=
  if d.apiGenerated then [] else [.apiDirMissing]

/-- Warnings of `validate_api_documentation` (lines 64-87): a missing
per-assembly page warns; a positive fallback count warns once. -/
def apiWarnings (d : SiteDist) : List VMsg :=
  if d.apiGenerated then
    (if d.core.present then [] else [.asmMissing 0]) ++
    (if d.attrs.present then [] else [.asmMissing 1]) ++
    (if d.sync.present then [] else [.asmMissing 2]) ++
    (if 0 < fallbackCount d then [.fallbackUsed (fallbackCount d)] else [])
  else []

/-- Errors of `validate_navigation_integrity` (lines 96-99): only a
missing `index.html` is an error there. -/
def navErrors (d : SiteDist) : List VMsg :=
  if d.indexHtml then [] else [.navIndexMissing]

/-- Warnings of `validate_navigation_integrity` (lines 101-123). -/
def navWarnings (d : SiteDist) : List VMsg :=
  if d.indexHtml then
    match d.navRead with
    | none => [.navReadFail]
    | some b => if b then [.nav404] else []
  else []

/-- Warnings contributed by one important page in
`validate_content_quality` (lines 159-175): nothing when the page is
missing or substantial. -/
def pageWarnings (i : Nat) (present : Bool) (q : PageQ) : List VMsg :=
  if present then
    match q with
    | .readFail => [.contentReadFail i]
    | .short => [.contentShort i]
    | .placeholder => [.contentPlaceholder i]
    | .good => []
  else []

/-- Warnings of `validate_content_quality` over its three hardcoded
pages. -/
def contentWarnings (d : SiteDist) : List VMsg :=
  pageWarnings 0 d.gettingStarted d.gettingStartedQ ++
  pageWarnings 1 d.firstConnection d.firstConnectionQ ++
  pageWarnings 2 d.apiIndex d.apiIndexQ

/-- All errors recorded by `run_validation` (lines 214-229), in check
order; a missing build directory short-circuits the other checks
(`validate_assets_and_resources` records neither errors nor warnings and
contributes nothing here). -/
def validateErrors (d : SiteDist) : List VMsg :=
  if d.dirExists then criticalErrors d ++ apiErrors d ++ navErrors d
  else [.distMissing]

/-- All warnings recorded by `run_validation`, in check order. -/
def validateWarnings (d : SiteDist) : List VMsg :=
  if d.dirExists then apiWarnings d ++ navWarnings d ++ contentWarnings d
  else []

/-- `generate_report` (lines 177-212): the process exits 0 exactly when no
error was recorded; warnings alone still exit 0. -/
def validatorExitCode (d : SiteDist) : Nat :=
  if (validateErrors d).length = 0 then 0 else 1

/-- A build directory with every critical file present and no fallback
markers, but no `api/generated` directory.  Concrete test fixture. -/
def distAllCriticalNoApiDir : SiteDist :=
  ⟨true, true, true, true, true, true, false, ⟨false, none⟩, ⟨false, none⟩,
    ⟨false, none⟩, some false, .good, true, .good, .good⟩

/-- A build directory missing only `index.html`.  Concrete test fixture. -/
def distNoIndex : SiteDist :=
  ⟨true, false, true, true, true, true, true, ⟨true, some false⟩,
    ⟨true, some false⟩, ⟨true, some false⟩, some false, .good, true, .good, .good⟩

/-- A healthy build directory: all critical files, `api/generated`
present, no fallback markers — and one missing per-assembly page, which
only warns.  Concrete test fixture. -/
def distHealthy : SiteDist :=
  ⟨true, true, true, true, true, true, true, ⟨true, some false⟩,
    ⟨false, none⟩, ⟨true, some false⟩, some false, .good, true, .good, .good⟩

/-! ## Fallback generator

create-fallback-api.py, `create_fallback_api`, lines 10-109. -/

/-- One file written by the fallback generator: target path and content. -/
structure FileWrite where
  path : List Char
  content : List Char
deriving DecidableEq, Repr

/-- The hardcoded assembly table of create-fallback-api.py lines 18-55 —
name, description and key-class lines — in dict insertion order. -/
def fallbackAssemblies : List (List Char × List Char × List (List Char)) :=
  [("Belay.Core".data,
    "Core library providing device communication, method execution, and session management".data,
    ["**Device** - Main device connection and communication class".data,
     "  - `ConnectAsync(string port)` - Connect to device on specified port".data,
     "  - `ExecuteAsync<T>(string code)` - Execute Python code and return typed result".data,
     "  - `StartAsync()` - Initialize device communication".data,
     "**TaskExecutor** - Handles [Task] attribute method execution".data,
     "  - `ExecuteTaskAsync(MethodInfo, object[])` - Execute attributed method on device".data,
     "  - Supports caching, timeouts, and result serialization".data,
     "**EnhancedExecutor** - Advanced method interception framework".data,
     "  - Pipeline-based execution with validation stages".data,
     "  - Method interception caching and deployment optimization".data,
     "**SerialDeviceCommunication** - USB/Serial device communication".data,
     "  - `SendAsync(string)` - Send commands to device".data,
     "  - `ReceiveAsync()` - Receive responses from device".data,
     "  - Automatic protocol detection and flow control".data]),
   ("Belay.Attributes".data,
    "Attribute definitions for marking methods for device execution".data,
    ["TaskAttribute - Execute methods as remote tasks with caching and timeout".data,
     "ThreadAttribute - Background thread execution on device".data,
     "SetupAttribute - Device initialization methods".data,
     "TeardownAttribute - Device cleanup methods".data,
     "ThreadPriority - Priority levels for thread execution".data]),
   ("Belay.Sync".data,
    "File synchronization and device file system operations".data,
    ["DeviceFileSystem - File operations on MicroPython device".data,
     "DeviceExtensions - Extension methods for device file operations".data])]

/-- The `README.md` content written for one assembly
(create-fallback-api.py lines 61-72). -/
def fallbackReadme (name desc : List Char) (classes : List (List Char)) : List Char :=
  "# ".data ++ name ++ " API Reference\n\n".data ++
  "*Fallback documentation - XML generation unavailable*\n\n".data ++
  "## Overview\n\n".data ++ desc ++ "\n\n".data ++
  "## Key Classes\n\n".data ++
  (classes.map (fun c => "- **".data ++ c ++ "**\n".data)).flatten ++
  "\n## Full Documentation\n\n".data ++
  "Complete API documentation with method signatures and detailed descriptions ".data ++
  "will be available when the .NET build pipeline is restored.\n\n".data

/-- The `api/index.md` content (create-fallback-api.py lines 75-107); the
assembly links are emitted over `sorted(assemblies.keys())`. -/
def fallbackIndex : List Char :=
  "# API Reference\n\n".data ++
  "*Using fallback documentation due to build issues*\n\n".data ++
  "## Generated Documentation\n\n".data ++
  (((fallbackAssemblies.map (fun a => a.1)).mergeSort strLe).map (fun a =>
    "- **[".data ++ a ++ "](./generated/".data ++ a ++ "/README.md)** - ".data ++
      a ++ " API documentation\n".data)).flatten ++
  "\n\n## Quick Reference\n\n### Core Classes\n- **Device** - Main device connection and communication\n- **TaskExecutor** - Handles [Task] attribute methods\n- **EnhancedExecutor** - Advanced method interception framework\n- **DeviceProxy** - Dynamic proxy for transparent method routing\n\n### Attributes\n- **TaskAttribute** - Execute methods as tasks with caching and timeout\n- **ThreadAttribute** - Background thread execution\n- **SetupAttribute** - Device initialization methods\n- **TeardownAttribute** - Device cleanup methods\n\n## Usage Examples\n\nFor practical examples, see the [Examples](/examples/) section.\n\n## Note on Documentation Status\n\nThis documentation is currently using fallback content due to .NET build pipeline issues. \nFull XML-generated documentation will be restored once the build issues are resolved.\n".data

/-- All files written by `create_fallback_api` (lines 57-107), in write
order: one `README.md` per hardcoded assembly, then the API index. -/
def create_fallback_api : List FileWrite :=
  (fallbackAssemblies.map (fun a =>
    ⟨"api/generated/".data ++ a.1 ++ "/README.md".data,
      fallbackReadme a.1 a.2.1 a.2.2⟩)) ++
  [⟨"api/index.md".data, fallbackIndex⟩]

/-! ## Whitespace-normal form

The shape asserted by the spec for extracted text: "collapse all runs of
whitespace (including newlines) to single spaces and trim ends". -/

/-- Adjacent characters are not both spaces. -/
def noTwoSp (a b : Char) : Prop := ¬(a = ' ' ∧ b = ' ')

/-- `s` is whitespace-normalized: every whitespace character of `s` is a
plain space, no two spaces are adjacent, and `s` neither starts nor ends
with a space — exactly "every run of whitespace (including newlines)
collapsed to a single space, trimmed at both ends". -/
def normTxt (s : List Char) : Prop :=
  (∀ c ∈ s, isPyWs c = true → c = ' ') ∧ s.Chain' noTwoSp ∧
  s.head? ≠ some ' ' ∧ s.getLast? ≠ some ' '

/-! ## Theorems -/

theorem takeWhile_append_stop (p : Char → Bool) (s t : List Char) (x : Char)
    (hs : ∀ c ∈ s, p c = true) (hx : p x = false) :
    (s ++ x :: t).takeWhile p = s := by
  induction s with
  | nil => simp [List.takeWhile_cons, hx]
  | cons a s ih =>
    have ha : p a = true := hs a (by simp)
    simp only [List.cons_append, List.takeWhile_cons, ha, if_true]
    exact congrArg (a :: ·) (ih fun c hc => hs c (by simp [hc]))

/-- **C1.** For a method member whose qualified name contains a parenthesized
parameter-type list — a name of the form `s ++ "(" ++ t` with no `(` in `s` —
both generators compute the owning-type prefix from the last dot of `s`, the
part before the opening parenthesis, independently of the parameter-list
text; in particular `Ns.Type.Method(Ns.Other,System.Int32)` is attributed to
the type `Ns.Type` by both generators, not to a type named
`Method(Ns.Other,System.Int32)`. -/
theorem method_owner_from_last_dot_before_paren
    (s t : List Char) (hs : '(' ∉ s) :
    typePrefixSimple (s ++ '(' :: t) = rsplitDotHead s ∧
    typePrefixVersioned (s ++ '(' :: t) = beforeLastDot s ∧
    typePrefixSimple ("Ns.Type.Method(Ns.Other,System.Int32)".data) = "Ns.Type".data ∧
    typePrefixVersioned ("Ns.Type.Method(Ns.Other,System.Int32)".data) = "Ns.Type".data := by
  have hmem : '(' ∈ s ++ '(' :: t := List.mem_append.mpr (Or.inr (List.mem_cons_self _ _))
  have htake : (s ++ '(' :: t).takeWhile (fun c => c ≠ '(') = s := by
    refine takeWhile_append_stop _ s t '(' (fun c hc => ?_) (by simp)
    simp only [ne_eq, decide_eq_true_eq]
    exact fun h => hs (h ▸ hc)
  have htake' : (s ++ '(' :: t).takeWhile (fun c => !decide (c = '(')) = s := by
    simpa using htake
  refine ⟨?_, ?_, by decide, by decide⟩
  · simp [typePrefixSimple, hmem, htake']
  · simp [typePrefixVersioned, hmem, htake']

/-- Witness for `method_owner_from_last_dot_before_paren`: the hypothesis is
discharged at the concrete method name `A.B.Do(C.D,E.F)`, whose owning type
comes out as `A.B` in both generators. -/
theorem method_owner_from_last_dot_before_paren_witness :
    ('(' ∉ "A.B.Do".data) ∧
    typePrefixSimple ("A.B.Do(C.D,E.F)".data) = "A.B".data ∧
    typePrefixVersioned ("A.B.Do(C.D,E.F)".data) = "A.B".data := by
  have h := method_owner_from_last_dot_before_paren ("A.B.Do".data) ("C.D,E.F)".data)
    (by decide)
  have e : "A.B.Do".data ++ '(' :: "C.D,E.F)".data = "A.B.Do(C.D,E.F)".data := by decide
  refine ⟨by decide, ?_, ?_⟩
  · have h1 := h.1; rw [e] at h1; rw [h1]; decide
  · have h2 := h.2.1; rw [e] at h2; rw [h2]; decide

/-- **C3 counterexample.** A member named `F:Ns.Type.Field` — whose prefix
denotes the Field kind, one of the four kinds of the claim — produces no
entry in generate-api-simple.py, which has no `F:` branch; the versioned
generator does produce the Field entry.  Hence an entry is not produced
"exactly when the prefix denotes one of the four kinds" in both scripts. -/
theorem field_member_ignored_by_simple_generator :
    classifySimple ("F:Ns.Type.Field".data) = none ∧
    classifyVersioned ("F:Ns.Type.Field".data) =
      some (VersionedKind.field, "Ns.Type.Field".data) ∧
    entriesSimple ["F:Ns.Type.Field".data] = [] := by
  refine ⟨by decide, by decide, by decide⟩

/-- **C3** (amended).  The versioned generator produces an entry exactly for
the prefixes `T:`, `M:`, `P:`, `F:`; the simple generator produces an entry
exactly for `T:`, `M:`, `P:` (members of Field kind are ignored there too);
and, in both, a member with an unrecognized prefix (such as
`E:Ns.Type.Event`) produces no entry and does not abort the processing of
the remaining members: the entries of a member list with such a member
inserted are exactly the entries of the list without it. -/
theorem entry_exactly_for_recognized_prefixes
    (n bad : List Char) (pre post : List (List Char))
    (hbs : classifySimple bad = none) (hbv : classifyVersioned bad = none) :
    ((classifySimple n).isSome =
      (lstarts "T:".data n || lstarts "M:".data n || lstarts "P:".data n)) ∧
    ((classifyVersioned n).isSome =
      (lstarts "T:".data n || lstarts "M:".data n || lstarts "P:".data n ||
        lstarts "F:".data n)) ∧
    entriesSimple (pre ++ bad :: post) = entriesSimple (pre ++ post) ∧
    entriesVersioned (pre ++ bad :: post) = entriesVersioned (pre ++ post) := by
  refine ⟨?_, ?_, ?_, ?_⟩
  · unfold classifySimple
    split_ifs <;> simp_all
  · unfold classifyVersioned
    split_ifs <;> simp_all
  · simp [entriesSimple, List.filterMap_append, List.filterMap_cons, hbs]
  · simp [entriesVersioned, List.filterMap_append, List.filterMap_cons, hbv]

/-- Witness for `entry_exactly_for_recognized_prefixes`: the hypotheses are
discharged at the unrecognized event member `E:Ns.Type.Event`, inserted
between a type member and a property member. -/
theorem entry_exactly_for_recognized_prefixes_witness :
    classifySimple ("E:Ns.Type.Event".data) = none ∧
    entriesSimple ["T:Ns.Type".data, "E:Ns.Type.Event".data, "P:Ns.Type.X".data] =
      entriesSimple ["T:Ns.Type".data, "P:Ns.Type.X".data] ∧
    (classifyVersioned "M:Ns.Type.Go(System.Int32)".data).isSome = true := by
  have h := entry_exactly_for_recognized_prefixes
    ("M:Ns.Type.Go(System.Int32)".data) ("E:Ns.Type.Event".data)
    ["T:Ns.Type".data] ["P:Ns.Type.X".data] (by decide) (by decide)
  refine ⟨by decide, ?_, ?_⟩
  · simpa using h.2.2.1
  · rw [h.2.1]; decide

/-- **C4 counterexample.** In generate-api-simple.py a member with a missing
`remarks` element yields the placeholder `"No description available"` for
its remarks, not the empty string: `clean_text` is applied to the default
`""` and maps every falsy input to the placeholder. -/
theorem missing_remarks_yields_placeholder_not_empty :
    remarksSimple none = noDescription ∧ remarksSimple none ≠ [] := by
  refine ⟨by decide, by decide⟩

/-- **C4** (amended). In generate-api-simple.py every missing text-bearing
sub-element — summary, remarks, returns, and per-parameter text — yields the
placeholder `"No description available"`; in generate-versioned-api-docs.py
every missing sub-element, the summary included, yields the empty string. -/
theorem missing_element_defaults :
    summarySimple none = noDescription ∧
    remarksSimple none = noDescription ∧
    returnsSimple none = noDescription ∧
    paramDescSimple none = noDescription ∧
    summaryVersioned none = [] ∧
    remarksVersioned none = [] ∧
    returnsVersioned none = [] ∧
    paramDescVersioned none = [] := by
  refine ⟨by decide, by decide, by decide, by decide, by decide, by decide,
    by decide, by decide⟩

theorem ratio_lt_three_tenths (d n : Nat) (hn : 0 < n) :
    ((d : ℚ) / (n : ℚ) < 3 / 10) ↔ 10 * d < 3 * n := by
  rw [div_lt_div_iff₀ (by exact_mod_cast hn) (by norm_num)]
  constructor
  · intro h
    have h' : (10 : ℚ) * d < 3 * n := by linarith
    exact_mod_cast h'
  · intro h
    have h' : (10 : ℚ) * d < 3 * n := by exact_mod_cast h
    linarith

/-- The quality condition in integer terms: it holds exactly when the
member list is non-empty and `10 * documented < 3 * total`. -/
theorem lowQuality_iff_nat (g : XmlFile) :
    lowQuality g = true ↔
      (0 < g.members.length ∧
        10 * documentedCount g.members < 3 * g.members.length) := by
  have hq : lowQuality g = true ↔
      (0 < g.members.length ∧
        (documentedCount g.members : ℚ) / (g.members.length : ℚ) < 3 / 10) := by
    simp [lowQuality, Bool.and_eq_true, decide_eq_true_eq]
  rw [hq]
  constructor
  · rintro ⟨h0, hr⟩
    exact ⟨h0, (ratio_lt_three_tenths _ _ h0).mp hr⟩
  · rintro ⟨h0, hr⟩
    exact ⟨h0, (ratio_lt_three_tenths _ _ h0).mpr hr⟩

/-- **C2.** The insufficient-quality condition of the strict single-pass
generator fires for a parsed file exactly when its member list is non-empty
and the documented ratio is strictly below 0.30 — equivalently, exactly
when `10 * documented < 3 * total` — where a member is documented when its
summary text strips to more than 20 characters; 29 documented members out
of 100 trigger the condition and 30 out of 100 do not; and whenever the
condition fires for at least one selected file, `main` exits with status 1
(this script produces no fallback content on any path). -/
theorem insufficient_quality_boundary_and_blocking
    (f : XmlFile) (files : List (Option XmlFile))
    (hf : some f ∈ files) (hlow : lowQuality f = true) :
    (∀ g : XmlFile, lowQuality g = true ↔
      (0 < g.members.length ∧
        (documentedCount g.members : ℚ) / (g.members.length : ℚ) < 3 / 10)) ∧
    (∀ g : XmlFile, lowQuality g = true ↔
      (0 < g.members.length ∧
        10 * documentedCount g.members < 3 * g.members.length)) ∧
    lowQuality (docFile 29 71) = true ∧
    lowQuality (docFile 30 70) = false ∧
    mainExitCode (mainRun files) = 1 := by
  have hiffQ : ∀ g : XmlFile, lowQuality g = true ↔
      (0 < g.members.length ∧
        (documentedCount g.members : ℚ) / (g.members.length : ℚ) < 3 / 10) := by
    intro g
    simp [lowQuality, Bool.and_eq_true, decide_eq_true_eq]
  refine ⟨hiffQ, fun g => lowQuality_iff_nat g, ?_, ?_, ?_⟩
  · exact (lowQuality_iff_nat _).mpr ⟨by decide, by decide⟩
  · by_cases hq : lowQuality (docFile 30 70) = true
    · exact absurd ((lowQuality_iff_nat _).mp hq) (by decide)
    · simpa using hq
  · have hne : files ≠ [] := List.ne_nil_of_mem hf
    have hpos : 0 < lowQualityCount files := by
      refine List.countP_pos_iff.mpr ⟨some f, hf, ?_⟩
      simp [hlow]
    simp [mainRun, mainExitCode, List.isEmpty_iff, hne, hpos]

/-- Witness for `insufficient_quality_boundary_and_blocking` on the
concrete single-file run whose only file has 29 documented members out of
100. -/
theorem insufficient_quality_boundary_and_blocking_witness :
    some (docFile 29 71) ∈ [some (docFile 29 71)] ∧
    lowQuality (docFile 29 71) = true ∧
    mainExitCode (mainRun [some (docFile 29 71)]) = 1 := by
  have hlow : lowQuality (docFile 29 71) = true :=
    (lowQuality_iff_nat _).mpr ⟨by decide, by decide⟩
  have h := insufficient_quality_boundary_and_blocking (docFile 29 71)
    [some (docFile 29 71)] (by simp) hlow
  exact ⟨by simp, hlow, h.2.2.2.2⟩

/-- **C7.** A selected file that fails to parse, or whose root lacks an
`assembly/name` element, is rejected as a whole: `create_assembly_docs`
returns failure for it, the per-file results of every other file are
unchanged (no exception propagates — processing continues with the next
file), and the rejected file contributes nothing to the success count. -/
theorem malformed_file_rejected_processing_continues
    (xs ys : List (Option XmlFile)) (bad : Option XmlFile)
    (hb : bad = none ∨ ∃ f, bad = some f ∧ f.assemblyName = none) :
    createAssemblyDocs bad = false ∧
    (xs ++ bad :: ys).map createAssemblyDocs =
      xs.map createAssemblyDocs ++ false :: ys.map createAssemblyDocs ∧
    successCount (xs ++ bad :: ys) = successCount (xs ++ ys) := by
  have hbad : createAssemblyDocs bad = false := by
    rcases hb with h | ⟨f, rfl, hf⟩
    · simp [h, createAssemblyDocs]
    · simp [createAssemblyDocs, hf]
  refine ⟨hbad, ?_, ?_⟩
  · simp [hbad]
  · simp [successCount, List.countP_append, List.countP_cons, hbad]

/-- Witness for `malformed_file_rejected_processing_continues`: a file
whose root lacks `assembly/name`, inserted between two well-formed files. -/
theorem malformed_file_rejected_processing_continues_witness :
    createAssemblyDocs (some ⟨none, []⟩) = false ∧
    successCount [some (docFile 1 0), some ⟨none, []⟩, some (docFile 2 0)] =
      successCount [some (docFile 1 0), some (docFile 2 0)] := by
  have h := malformed_file_rejected_processing_continues
    [some (docFile 1 0)] [some (docFile 2 0)] (some ⟨none, []⟩)
    (Or.inr ⟨⟨none, []⟩, rfl, rfl⟩)
  exact ⟨h.1, h.2.2⟩

/-- **C10.** The single-pass generator silently caps processing at the
first 10 surviving glob results: at most 10 files are ever selected (after
excluding paths containing `/ref/`), and once a prefix `xs` of the glob
result already contains 10 surviving files, appending any further glob
results `ys` — whatever they contain — changes neither the selected file
list nor the run's outcome: the extra files are never parsed or rendered,
contribute to no count, and the outcome carries no message about their
omission. -/
theorem at_most_ten_files_processed
    (g xs ys : List GlobFile)
    (hxs : (xs.filter (fun f => !containsSub "/ref/".data f.path)).length = 10) :
    (selectFiles g).length ≤ 10 ∧
    selectFiles (xs ++ ys) = selectFiles xs ∧
    mainFromGlob (xs ++ ys) = mainFromGlob xs := by
  have hsel : selectFiles (xs ++ ys) = selectFiles xs := by
    unfold selectFiles
    rw [List.filter_append, ← hxs, List.take_left, List.take_length]
  refine ⟨?_, hsel, ?_⟩
  · simpa [selectFiles] using List.length_take_le 10
      (g.filter (fun f => !containsSub "/ref/".data f.path))
  · unfold mainFromGlob
    rw [hsel]

/-- Witness for `at_most_ten_files_processed`: ten plain files followed by
an eleventh whose parse result differs; the outcome ignores the
eleventh. -/
theorem at_most_ten_files_processed_witness :
    ((List.replicate 10 (⟨"a.xml".data, some (docFile 1 0)⟩ : GlobFile)).filter
      (fun f => !containsSub "/ref/".data f.path)).length = 10 ∧
    mainFromGlob (List.replicate 10 (⟨"a.xml".data, some (docFile 1 0)⟩ : GlobFile) ++
        [⟨"b.xml".data, none⟩]) =
      mainFromGlob (List.replicate 10 (⟨"a.xml".data, some (docFile 1 0)⟩ : GlobFile)) := by
  have h := at_most_ten_files_processed []
    (List.replicate 10 (⟨"a.xml".data, some (docFile 1 0)⟩ : GlobFile))
    [⟨"b.xml".data, none⟩] (by decide)
  exact ⟨by decide, h.2.2⟩

theorem strLe_total (a b : List Char) : (strLe a b || strLe b a) = true := by
  induction a generalizing b with
  | nil => simp [strLe]
  | cons x xs ih =>
    cases b with
    | nil => simp [strLe]
    | cons y ys =>
      rcases eq_or_ne x y with hxy | hxy
      · subst hxy
        simpa [strLe] using ih ys
      · rcases lt_or_gt_of_ne hxy with h | h <;>
          simp [strLe, hxy, hxy.symm, h]

theorem strLe_trans (a b c : List Char)
    (hab : strLe a b = true) (hbc : strLe b c = true) : strLe a c = true := by
  induction a generalizing b c with
  | nil => simp [strLe]
  | cons x xs ih =>
    cases b with
    | nil => simp [strLe] at hab
    | cons y ys =>
      cases c with
      | nil => simp [strLe] at hbc
      | cons z zs =>
        simp only [strLe] at hab hbc ⊢
        rcases eq_or_ne x y with hxy | hxy
        · subst hxy
          rw [if_pos rfl] at hab
          rcases eq_or_ne x z with hxz | hxz
          · subst hxz
            rw [if_pos rfl] at hbc ⊢
            exact ih ys zs hab hbc
          · rw [if_neg hxz] at hbc ⊢
            exact hbc
        · rw [if_neg hxy] at hab
          have hlt : x < y := of_decide_eq_true hab
          rcases eq_or_ne y z with hyz | hyz
          · subst hyz
            rw [if_neg hxy]
            exact hab
          · rw [if_neg hyz] at hbc
            have hlt2 : y < z := of_decide_eq_true hbc
            have hxz : x < z := lt_trans hlt hlt2
            rw [if_neg (ne_of_lt hxz)]
            exact decide_eq_true hxz

/-- **C6 counterexample.** The simple generator emits methods in collection
order, not sorted: with methods collected as `[Ns.T.B, Ns.T.A]` it renders
`B` before `A`, although the short name `B` is not lexically before `A`. -/
theorem simple_renderer_keeps_collection_order :
    renderOrderSimpleMethods [⟨"Ns.T.B".data, []⟩, ⟨"Ns.T.A".data, []⟩] =
      [⟨"Ns.T.B".data, []⟩, ⟨"Ns.T.A".data, []⟩] ∧
    strLe (shortName "Ns.T.B".data) (shortName "Ns.T.A".data) = false := by
  exact ⟨rfl, by decide⟩

/-- **C6** (amended). At render time the versioned generator emits the
collected members of one kind within a type sorted by their full qualified
name (within one type all such names share the type prefix, so this
coincides with short-name order except when one short name extends another
past a `#`): the emitted list is pairwise `strLe`-ordered on names and is a
permutation of the collected members.  The simple generator does not sort:
it emits the first 15 collected methods (respectively the first 5
properties) in collection order. -/
theorem versioned_renderer_sorts_members_by_name (ms : List MemberInfo) :
    List.Pairwise (fun a b => strLe a.name b.name = true) (renderOrderVersioned ms) ∧
    (renderOrderVersioned ms).Perm ms ∧
    renderOrderSimpleMethods ms = ms.take 15 ∧
    renderOrderSimpleProps ms = ms.take 5 := by
  refine ⟨?_, List.mergeSort_perm ms _, rfl, rfl⟩
  exact List.sorted_mergeSort
    (fun a b c hab hbc => strLe_trans a.name b.name c.name hab hbc)
    (fun a b => strLe_total a.name b.name) ms

/-- **C8 counterexample.** A build directory with every critical file
present and no fallback markers, but lacking the `api/generated`
directory, records an error and exits 1 — "all critical files present and
no fallback markers" does not suffice for exit status 0. -/
theorem all_criticals_no_fallback_can_still_fail :
    criticalErrors distAllCriticalNoApiDir = [] ∧
    fallbackCount distAllCriticalNoApiDir = 0 ∧
    validateErrors distAllCriticalNoApiDir = [VMsg.apiDirMissing] ∧
    validatorExitCode distAllCriticalNoApiDir = 1 := by
  exact ⟨rfl, rfl, rfl, rfl⟩

/-- **C8** (amended). The deployment validator exits non-zero exactly when
at least one error was recorded, and warnings alone still exit 0; a build
directory missing `index.html` records at least one error and exits 1; and
a directory with all critical files present, the `api/generated` directory
present, and no fallback markers records zero errors and exits 0 (missing
per-assembly pages, fallback markers and content heuristics produce only
warnings). -/
theorem validator_exit_nonzero_iff_errors
    (d e g : SiteDist)
    (he : e.dirExists = true) (he2 : e.indexHtml = false)
    (hg1 : g.dirExists = true) (hg2 : g.indexHtml = true)
    (hg3 : g.gettingStarted = true) (hg4 : g.examplesIndex = true)
    (hg5 : g.apiIndex = true) (hg6 : g.hardwareIndex = true)
    (hg7 : g.apiGenerated = true) :
    (validatorExitCode d ≠ 0 ↔ validateErrors d ≠ []) ∧
    (validateErrors d = [] → validatorExitCode d = 0) ∧
    (validateErrors e ≠ [] ∧ validatorExitCode e = 1) ∧
    (validateErrors g = [] ∧ validatorExitCode g = 0) := by
  have hiff : ∀ x : SiteDist, validatorExitCode x ≠ 0 ↔ validateErrors x ≠ [] := by
    intro x
    by_cases herr : validateErrors x = []
    · simp [validatorExitCode, herr]
    · have hlen : (validateErrors x).length ≠ 0 := by
        simpa [List.length_eq_zero] using herr
      simp [validatorExitCode, hlen, herr]
  have hge : validateErrors g = [] := by
    simp [validateErrors, criticalErrors, apiErrors, navErrors,
      hg1, hg2, hg3, hg4, hg5, hg6, hg7]
  have hee : validateErrors e ≠ [] := by
    simp [validateErrors, criticalErrors, he, he2]
  refine ⟨hiff d, ?_, ⟨hee, ?_⟩, hge, ?_⟩
  · intro herr
    simp [validatorExitCode, herr]
  · have hlen : (validateErrors e).length ≠ 0 := by
      simpa [List.length_eq_zero] using hee
    simp [validatorExitCode, hlen]
  · simp [validatorExitCode, hge]

/-- Witness for `validator_exit_nonzero_iff_errors` at concrete build
directories: one missing `index.html` (error, exit 1) and a healthy one
whose only blemish — a missing per-assembly page — is a warning, with exit
0 and zero errors. -/
theorem validator_exit_nonzero_iff_errors_witness :
    (validateErrors distNoIndex ≠ [] ∧ validatorExitCode distNoIndex = 1) ∧
    (validateErrors distHealthy = [] ∧ validatorExitCode distHealthy = 0) ∧
    validateWarnings distHealthy ≠ [] := by
  have h := validator_exit_nonzero_iff_errors distHealthy distNoIndex distHealthy
    rfl rfl rfl rfl rfl rfl rfl rfl rfl
  exact ⟨h.2.2.1, h.2.2.2, by decide⟩

/-- **C9.** Every run of the fallback generator writes exactly three
assembly directories — `Belay.Core`, `Belay.Attributes`, `Belay.Sync`,
matching the hardcoded table in that order — each with a `README.md` whose
content contains the literal marker text "Fallback documentation" (the
fourth and final write is the API index, which does not). -/
theorem fallback_writes_three_marked_assemblies :
    create_fallback_api.map (fun w => w.path) =
      ["api/generated/Belay.Core/README.md".data,
       "api/generated/Belay.Attributes/README.md".data,
       "api/generated/Belay.Sync/README.md".data,
       "api/index.md".data] ∧
    fallbackAssemblies.map (fun a => a.1) =
      ["Belay.Core".data, "Belay.Attributes".data, "Belay.Sync".data] ∧
    (create_fallback_api.take 3).all
      (fun w => containsSub "Fallback documentation".data w.content) = true := by
  refine ⟨by decide, by decide, by decide⟩

theorem noTwoSp_of_left (a b : Char) (h : a ≠ ' ') : noTwoSp a b :=
  fun hc => h hc.1

theorem noTwoSp_of_right (a b : Char) (h : b ≠ ' ') : noTwoSp a b :=
  fun hc => h hc.2

theorem chain'_of_no_space (w : List Char) (h : ∀ c ∈ w, c ≠ ' ') :
    w.Chain' noTwoSp := by
  induction w with
  | nil => simp
  | cons a t ih =>
    rw [List.chain'_cons']
    exact ⟨fun y _ => noTwoSp_of_left a y (h a (by simp)),
      ih fun c hc => h c (by simp [hc])⟩

theorem head?_eq_of_prefix {x y : List Char} (h : x <+: y) (hx : x ≠ []) :
    y.head? = x.head? := by
  obtain ⟨u, rfl⟩ := h
  cases x with
  | nil => exact absurd rfl hx
  | cons a t => simp

theorem getLast?_eq_of_suffix {x y : List Char} (h : x <:+ y) (hx : x ≠ []) :
    y.getLast? = x.getLast? := by
  obtain ⟨u, rfl⟩ := h
  rw [List.getLast?_append]
  cases hg : x.getLast? with
  | none => exact absurd (List.getLast?_eq_none.mp hg) hx
  | some a => simp

theorem getLast?_cons_ne (a : Char) (l : List Char) (h : l ≠ []) :
    (a :: l).getLast? = l.getLast? := by
  cases l with
  | nil => exact absurd rfl h
  | cons b t => exact List.getLast?_cons_cons

theorem mem_of_getLast? {l : List Char} {a : Char} (h : l.getLast? = some a) :
    a ∈ l := by
  induction l with
  | nil => simp at h
  | cons b t ih =>
    cases t with
    | nil =>
      simp at h
      simp [h]
    | cons c u =>
      rw [List.getLast?_cons_cons] at h
      exact List.mem_cons_of_mem b (ih h)

theorem head_dropWhile_not (p : Char → Bool) (l : List Char) (c : Char)
    (h : (l.dropWhile p).head? = some c) : p c = false := by
  induction l with
  | nil => simp at h
  | cons a t ih =>
    rw [List.dropWhile_cons] at h
    by_cases hp : p a = true
    · rw [if_pos hp] at h
      exact ih h
    · rw [if_neg hp] at h
      simp at h
      rw [← h]
      simpa using hp

theorem pyStrip_prefix_dropWhile (s : List Char) : pyStrip s <+: s.dropWhile isPyWs := by
  unfold pyStrip
  have h : ((s.dropWhile isPyWs).reverse.dropWhile isPyWs) <:+
      (s.dropWhile isPyWs).reverse := List.dropWhile_suffix _
  have h2 := (List.reverse_prefix).mpr h
  simpa using h2

theorem pyStrip_head_not_ws (s : List Char) (c : Char)
    (h : (pyStrip s).head? = some c) : isPyWs c = false := by
  have hne : pyStrip s ≠ [] := by
    intro he
    rw [he] at h
    simp at h
  have hh := head?_eq_of_prefix (pyStrip_prefix_dropWhile s) hne
  rw [h] at hh
  exact head_dropWhile_not isPyWs s c hh

theorem pyStrip_getLast_not_ws (s : List Char) (c : Char)
    (h : (pyStrip s).getLast? = some c) : isPyWs c = false := by
  unfold pyStrip at h
  rw [List.getLast?_reverse] at h
  exact head_dropWhile_not isPyWs _ c h

theorem collapseWs_ne_nil (s : List Char) (h : s ≠ []) : collapseWs s ≠ [] := by
  cases s with
  | nil => exact absurd rfl h
  | cons c rest =>
    rw [collapseWs]
    split <;> simp

theorem collapseWs_head? (s : List Char) :
    (collapseWs s).head? = s.head?.map (fun c => if isPyWs c then ' ' else c) := by
  cases s with
  | nil => simp [collapseWs]
  | cons c rest =>
    rw [collapseWs]
    split
    · next h => simp [h]
    · next h => simp [h]

theorem collapseWs_only_space (s : List Char) (c : Char) (hc : c ∈ collapseWs s)
    (hw : isPyWs c = true) : c = ' ' := by
  induction s using collapseWs.induct with
  | case1 => simp [collapseWs] at hc
  | case2 a rest h ih =>
    rw [collapseWs, if_pos h] at hc
    rcases List.mem_cons.mp hc with h1 | h1
    · exact h1
    · exact ih h1
  | case3 a rest h ih =>
    rw [collapseWs, if_neg h] at hc
    rcases List.mem_cons.mp hc with h1 | h1
    · subst h1
      exact absurd hw h
    · exact ih h1

theorem collapseWs_chain' (s : List Char) : (collapseWs s).Chain' noTwoSp := by
  induction s using collapseWs.induct with
  | case1 => simp [collapseWs]
  | case2 a rest h ih =>
    rw [collapseWs, if_pos h, List.chain'_cons']
    refine ⟨?_, ih⟩
    intro y hy
    rw [collapseWs_head?] at hy
    cases hd : (rest.dropWhile isPyWs).head? with
    | none => rw [hd] at hy; simp at hy
    | some d =>
      rw [hd] at hy
      have hdn : isPyWs d = false := head_dropWhile_not isPyWs rest d hd
      simp [hdn] at hy
      refine noTwoSp_of_right _ _ ?_
      rw [← hy]
      intro he
      rw [he] at hdn
      simp [isPyWs] at hdn
  | case3 a rest h ih =>
    rw [collapseWs, if_neg h, List.chain'_cons']
    refine ⟨?_, ih⟩
    intro y _
    refine noTwoSp_of_left _ _ ?_
    intro he
    rw [he] at h
    simp [isPyWs] at h

theorem collapseWs_getLast? (s : List Char)
    (hs : ∀ c, s.getLast? = some c → isPyWs c = false) :
    (collapseWs s).getLast? = s.getLast? := by
  induction s using collapseWs.induct with
  | case1 => simp [collapseWs]
  | case2 a rest h ih =>
    rw [collapseWs, if_pos h]
    have hrest : rest ≠ [] := by
      rintro rfl
      have := hs a (by simp)
      rw [h] at this
      cases this
    have hlast : (a :: rest).getLast? = rest.getLast? := getLast?_cons_ne a rest hrest
    have hdw : rest.dropWhile isPyWs ≠ [] := by
      intro he
      have hall := List.dropWhile_eq_nil_iff.mp he
      cases hr : rest.getLast? with
      | none => exact hrest (List.getLast?_eq_none.mp hr)
      | some d =>
        have hd : isPyWs d = false := by
          have := hs d (by rw [hlast]; exact hr)
          exact this
        have := hall d (mem_of_getLast? hr)
        rw [hd] at this
        cases this
    have hdl : (rest.dropWhile isPyWs).getLast? = rest.getLast? :=
      (getLast?_eq_of_suffix (List.dropWhile_suffix _) hdw).symm
    have hcw : collapseWs (rest.dropWhile isPyWs) ≠ [] := collapseWs_ne_nil _ hdw
    rw [getLast?_cons_ne ' ' _ hcw, hlast, ← hdl]
    apply ih
    intro c hc
    rw [hdl] at hc
    apply hs
    rw [hlast]
    exact hc
  | case3 a rest h ih =>
    rw [collapseWs, if_neg h]
    cases hrest : rest with
    | nil => simp [collapseWs]
    | cons b u =>
      rw [← hrest]
      have hrne : rest ≠ [] := by rw [hrest]; simp
      have hcw : collapseWs rest ≠ [] := collapseWs_ne_nil _ hrne
      rw [getLast?_cons_ne a _ hcw, getLast?_cons_ne a rest hrne]
      apply ih
      intro c hc
      apply hs
      rw [getLast?_cons_ne a rest hrne]
      exact hc

theorem collapseWs_pyStrip_normTxt (s : List Char) :
    normTxt (collapseWs (pyStrip s)) := by
  refine ⟨fun c hc hw => collapseWs_only_space _ c hc hw, collapseWs_chain' _, ?_, ?_⟩
  · rw [collapseWs_head?]
    cases hh : (pyStrip s).head? with
    | none => simp
    | some c =>
      have hcn := pyStrip_head_not_ws s c hh
      simp only [Option.map_some', hcn, Bool.false_eq_true, if_false]
      intro he
      simp at he
      rw [he] at hcn
      simp [isPyWs] at hcn
  · rw [collapseWs_getLast? _ (fun c h => pyStrip_getLast_not_ws s c h)]
    intro he
    have := pyStrip_getLast_not_ws s ' ' he
    simp [isPyWs] at this

theorem splitWsAux_words (s : List Char) :
    ∀ acc, (∀ c ∈ acc, isPyWs c = false) →
      ∀ w ∈ splitWsAux acc s, w ≠ [] ∧ ∀ c ∈ w, isPyWs c = false := by
  induction s with
  | nil =>
    intro acc hacc w hw
    rw [splitWsAux] at hw
    split at hw
    · simp at hw
    · next h =>
      simp at hw
      subst hw
      refine ⟨by simpa [List.isEmpty_iff] using h, ?_⟩
      intro c hc
      exact hacc c (List.mem_reverse.mp hc)
  | cons c rest ih =>
    intro acc hacc w hw
    rw [splitWsAux] at hw
    split at hw
    · split at hw
      · exact ih [] (by simp) w hw
      · next hne =>
        rcases List.mem_cons.mp hw with h1 | h1
        · subst h1
          refine ⟨by simpa [List.isEmpty_iff] using hne, ?_⟩
          intro d hd
          exact hacc d (List.mem_reverse.mp hd)
        · exact ih [] (by simp) w h1
    · next hcws =>
      refine ih (c :: acc) ?_ w hw
      intro d hd
      rcases List.mem_cons.mp hd with h1 | h1
      · subst h1
        simpa using hcws
      · exact hacc d h1

theorem splitWs_words (s : List Char) :
    ∀ w ∈ splitWs s, w ≠ [] ∧ ∀ c ∈ w, isPyWs c = false :=
  splitWsAux_words s [] (by simp)

theorem not_space_of_not_ws {c : Char} (h : isPyWs c = false) : c ≠ ' ' := by
  intro he
  rw [he] at h
  simp [isPyWs] at h

theorem joinSpace_ne_nil (ws : List (List Char)) (h : ws ≠ [])
    (hw : ∀ w ∈ ws, w ≠ []) : joinSpace ws ≠ [] := by
  cases ws with
  | nil => exact absurd rfl h
  | cons w t =>
    cases t with
    | nil => simpa [joinSpace] using hw w (by simp)
    | cons w2 t2 => simp [joinSpace]

theorem joinSpace_normTxt (ws : List (List Char))
    (h : ∀ w ∈ ws, w ≠ [] ∧ ∀ c ∈ w, isPyWs c = false) :
    normTxt (joinSpace ws) := by
  induction ws with
  | nil => exact ⟨by simp [joinSpace], by simp [joinSpace], by simp [joinSpace],
      by simp [joinSpace]⟩
  | cons w t ih =>
    obtain ⟨hne, hnws⟩ := h w (by simp)
    have hnsp : ∀ c ∈ w, c ≠ ' ' := fun c hc => not_space_of_not_ws (hnws c hc)
    cases t with
    | nil =>
      show normTxt (joinSpace [w])
      have hj : joinSpace [w] = w := rfl
      rw [hj]
      refine ⟨?_, chain'_of_no_space w hnsp, ?_, ?_⟩
      · intro c hc hw'
        exact absurd hw' (by simp [hnws c hc])
      · intro hh
        exact hnsp ' ' (List.mem_of_mem_head? (by rw [hh]; simp)) rfl
      · intro hh
        exact hnsp ' ' (mem_of_getLast? hh) rfl
    | cons w2 t2 =>
      have ihn := ih fun w' hw' => h w' (by simp [hw'])
      obtain ⟨ih1, ih2, ih3, ih4⟩ := ihn
      have hjne : joinSpace (w2 :: t2) ≠ [] :=
        joinSpace_ne_nil _ (by simp) (fun w' hw' => (h w' (by simp [hw'])).1)
      have hj : joinSpace (w :: w2 :: t2) = w ++ ' ' :: joinSpace (w2 :: t2) := rfl
      rw [hj]
      refine ⟨?_, ?_, ?_, ?_⟩
      · intro c hc hw'
        rcases List.mem_append.mp hc with h1 | h1
        · exact absurd hw' (by simp [hnws c h1])
        · rcases List.mem_cons.mp h1 with h2 | h2
          · exact h2
          · exact ih1 c h2 hw'
      · rw [List.chain'_append]
        refine ⟨chain'_of_no_space w hnsp, ?_, ?_⟩
        · rw [List.chain'_cons']
          refine ⟨?_, ih2⟩
          intro y hy
          refine noTwoSp_of_right _ _ ?_
          intro he
          subst he
          exact ih3 (by simpa using hy)
        · intro x hx y _
          exact noTwoSp_of_left _ _ (hnsp x (mem_of_getLast? (by simpa using hx)))
      · rw [List.head?_append]
        cases w with
        | nil => exact absurd rfl hne
        | cons a t3 =>
          simp only [List.head?_cons, Option.or_some]
          intro he
          simp at he
          exact hnsp ' ' (by simp [he]) rfl
      · rw [List.getLast?_append]
        have hg : (' ' :: joinSpace (w2 :: t2)).getLast? = (joinSpace (w2 :: t2)).getLast? :=
          getLast?_cons_ne ' ' _ hjne
        rw [hg]
        cases hgl : (joinSpace (w2 :: t2)).getLast? with
        | none => exact absurd (List.getLast?_eq_none.mp hgl) hjne
        | some a =>
          simp only [Option.or_some]
          intro he
          simp at he
          subst he
          exact ih4 hgl

theorem noDescription_normTxt : normTxt noDescription := by
  have h : noDescription = joinSpace (splitWs noDescription) := by decide
  rw [h]
  exact joinSpace_normTxt _ (splitWs_words _)

/-- `clean_text` always returns whitespace-normalized text. -/
theorem clean_text_normTxt (t : Option (List Char)) : normTxt (clean_text t) := by
  cases t with
  | none => exact noDescription_normTxt
  | some s =>
    rw [clean_text]
    split
    · exact noDescription_normTxt
    · exact joinSpace_normTxt _ (splitWs_words _)

theorem replaceAll_ne_nil (pat rep : List Char) (hrep : rep ≠ []) (s : List Char)
    (hs : s ≠ []) : replaceAll pat rep s ≠ [] := by
  cases s with
  | nil => exact absurd rfl hs
  | cons c rest =>
    rw [replaceAll]
    split
    · simp
    · split
      · simp [hrep]
      · simp

theorem replaceAll_mem (pat rep : List Char) (x : Char) :
    ∀ s, x ∈ replaceAll pat rep s → x ∈ rep ∨ x ∈ s := by
  intro s
  induction s using replaceAll.induct pat rep with
  | case1 => intro hx; simp [replaceAll] at hx
  | case2 c rest h =>
    intro hx
    rw [replaceAll, dif_pos h] at hx
    exact Or.inr hx
  | case3 c rest h h2 ih =>
    intro hx
    rw [replaceAll, dif_neg h, if_pos h2] at hx
    rcases List.mem_append.mp hx with h3 | h3
    · exact Or.inl h3
    · rcases ih h3 with h4 | h4
      · exact Or.inl h4
      · exact Or.inr (List.drop_subset _ _ h4)
  | case4 c rest h h2 ih =>
    intro hx
    rw [replaceAll, dif_neg h, if_neg h2] at hx
    rcases List.mem_cons.mp hx with h3 | h3
    · exact Or.inr (by simp [h3])
    · rcases ih h3 with h4 | h4
      · exact Or.inl h4
      · exact Or.inr (List.mem_cons_of_mem c h4)

theorem replaceAll_head?_cases (pat rep : List Char) (hrep : rep ≠ [])
    (s : List Char) (x : Char) (h : (replaceAll pat rep s).head? = some x) :
    x ∈ rep ∨ s.head? = some x := by
  cases s with
  | nil => simp [replaceAll] at h
  | cons c rest =>
    rw [replaceAll] at h
    split at h
    · exact Or.inr h
    · split at h
      · rw [List.head?_append] at h
        cases rep with
        | nil => exact absurd rfl hrep
        | cons r rs =>
          simp only [List.head?_cons, Option.or_some] at h
          simp at h
          exact Or.inl (by simp [← h])
      · simp at h
        exact Or.inr (by simp [← h])

theorem replaceAll_getLast?_cases (pat rep : List Char) (hrep : rep ≠ []) :
    ∀ s x, (replaceAll pat rep s).getLast? = some x →
      x ∈ rep ∨ s.getLast? = some x := by
  intro s
  induction s using replaceAll.induct pat rep with
  | case1 => intro x hx; simp [replaceAll] at hx
  | case2 c rest h =>
    intro x hx
    rw [replaceAll, dif_pos h] at hx
    exact Or.inr hx
  | case3 c rest h h2 ih =>
    intro x hx
    rw [replaceAll, dif_neg h, if_pos h2] at hx
    by_cases hd : List.drop pat.length (c :: rest) = []
    · rw [hd] at hx
      have : replaceAll pat rep [] = [] := by rw [replaceAll]
      rw [this, List.append_nil] at hx
      exact Or.inl (mem_of_getLast? hx)
    · have hrne : replaceAll pat rep (List.drop pat.length (c :: rest)) ≠ [] :=
        replaceAll_ne_nil pat rep hrep _ hd
      rw [List.getLast?_append] at hx
      cases hg : (replaceAll pat rep (List.drop pat.length (c :: rest))).getLast? with
      | none => exact absurd (List.getLast?_eq_none.mp hg) hrne
      | some a =>
        rw [hg, Option.or_some] at hx
        simp at hx
        subst hx
        rcases ih a hg with h4 | h4
        · exact Or.inl h4
        · refine Or.inr ?_
          rw [getLast?_eq_of_suffix (List.drop_suffix pat.length (c :: rest)) hd]
          exact h4
  | case4 c rest h h2 ih =>
    intro x hx
    rw [replaceAll, dif_neg h, if_neg h2] at hx
    by_cases hrest : rest = []
    · subst hrest
      have : replaceAll pat rep [] = [] := by rw [replaceAll]
      rw [this] at hx
      simp at hx
      exact Or.inr (by simp [hx])
    · have hrne : replaceAll pat rep rest ≠ [] := replaceAll_ne_nil pat rep hrep _ hrest
      rw [getLast?_cons_ne c _ hrne] at hx
      rcases ih x hx with h4 | h4
      · exact Or.inl h4
      · refine Or.inr ?_
        rw [getLast?_cons_ne c rest hrest]
        exact h4

theorem replaceAll_chain' (pat rep : List Char) (hrep : rep ≠ [])
    (hrw : ∀ c ∈ rep, isPyWs c = false) :
    ∀ s, s.Chain' noTwoSp → (replaceAll pat rep s).Chain' noTwoSp := by
  have hrsp : ∀ c ∈ rep, c ≠ ' ' := fun c hc => not_space_of_not_ws (hrw c hc)
  intro s
  induction s using replaceAll.induct pat rep with
  | case1 => intro _; simp [replaceAll]
  | case2 c rest h =>
    intro hc
    rw [replaceAll, dif_pos h]
    exact hc
  | case3 c rest h h2 ih =>
    intro hc
    rw [replaceAll, dif_neg h, if_pos h2]
    rw [List.chain'_append]
    refine ⟨chain'_of_no_space rep hrsp,
      ih (hc.suffix (List.drop_suffix pat.length (c :: rest))), ?_⟩
    intro x hx y _
    exact noTwoSp_of_left _ _ (hrsp x (mem_of_getLast? (by simpa using hx)))
  | case4 c rest h h2 ih =>
    intro hc
    rw [replaceAll, dif_neg h, if_neg h2]
    rw [List.chain'_cons']
    have hcc := List.chain'_cons'.mp hc
    refine ⟨?_, ih hcc.2⟩
    intro y hy
    rcases replaceAll_head?_cases pat rep hrep rest y (by simpa using hy) with h3 | h3
    · exact noTwoSp_of_right _ _ (hrsp y h3)
    · exact hcc.1 y (by simp [h3])

/-- `replaceAll` with a non-empty whitespace-free replacement preserves
whitespace-normal form. -/
theorem replaceAll_normTxt (pat rep : List Char) (hrep : rep ≠ [])
    (hrw : ∀ c ∈ rep, isPyWs c = false) (s : List Char) (hs : normTxt s) :
    normTxt (replaceAll pat rep s) := by
  obtain ⟨h1, h2, h3, h4⟩ := hs
  refine ⟨?_, replaceAll_chain' pat rep hrep hrw s h2, ?_, ?_⟩
  · intro c hc hw
    rcases replaceAll_mem pat rep c s hc with h | h
    · exact absurd (hrw c h) (by simp [hw])
    · exact h1 c h hw
  · intro hh
    rcases replaceAll_head?_cases pat rep hrep s ' ' hh with h | h
    · exact absurd (hrw ' ' h) (by decide)
    · exact h3 h
  · intro hh
    rcases replaceAll_getLast?_cases pat rep hrep s ' ' hh with h | h
    · exact absurd (hrw ' ' h) (by decide)
    · exact h4 h

theorem scanCapture_ne_nil (pre suf : List Char) (s : List Char) (hs : s ≠ []) :
    scanCapture pre suf s ≠ [] := by
  cases s with
  | nil => exact absurd rfl hs
  | cons c rest =>
    rw [scanCapture]
    split
    · simp only []
      split
      · simp
      · split <;> simp
    · simp

theorem scanCapture_mem (pre suf : List Char) (x : Char) :
    ∀ s, x ∈ scanCapture pre suf s → x = tick ∨ x ∈ s := by
  intro s
  induction s using scanCapture.induct pre suf with
  | case1 => intro hx; simp [scanCapture] at hx
  | case2 c rest hpre s1 cap hcap ih =>
    intro hx
    rw [scanCapture, if_pos hpre] at hx
    simp only [] at hx
    rw [dif_pos hcap] at hx
    rcases List.mem_cons.mp hx with h1 | h1
    · exact Or.inr (by simp [h1])
    · rcases ih h1 with h2 | h2
      · exact Or.inl h2
      · exact Or.inr (List.mem_cons_of_mem c h2)
  | case3 c rest hpre s1 cap hcap hsuf ih =>
    intro hx
    rw [scanCapture, if_pos hpre] at hx
    simp only [] at hx
    rw [dif_neg hcap, if_pos hsuf] at hx
    rcases List.mem_cons.mp hx with h1 | h1
    · exact Or.inl h1
    · rcases List.mem_append.mp h1 with h2 | h2
      · refine Or.inr ?_
        exact List.drop_subset _ _ (List.takeWhile_subset _ h2)
      · rcases List.mem_cons.mp h2 with h3 | h3
        · exact Or.inl h3
        · rcases ih h3 with h4 | h4
          · exact Or.inl h4
          · exact Or.inr
              (List.drop_subset _ _ (List.drop_subset _ _ (List.drop_subset _ _ h4)))
  | case4 c rest hpre s1 cap hcap hsuf ih =>
    intro hx
    rw [scanCapture, if_pos hpre] at hx
    simp only [] at hx
    rw [dif_neg hcap, if_neg hsuf] at hx
    rcases List.mem_cons.mp hx with h1 | h1
    · exact Or.inr (by simp [h1])
    · rcases ih h1 with h2 | h2
      · exact Or.inl h2
      · exact Or.inr (List.mem_cons_of_mem c h2)
  | case5 c rest hpre ih =>
    intro hx
    rw [scanCapture, if_neg hpre] at hx
    rcases List.mem_cons.mp hx with h1 | h1
    · exact Or.inr (by simp [h1])
    · rcases ih h1 with h2 | h2
      · exact Or.inl h2
      · exact Or.inr (List.mem_cons_of_mem c h2)

theorem scanCapture_head?_cases (pre suf : List Char) (s : List Char) (x : Char)
    (h : (scanCapture pre suf s).head? = some x) : x = tick ∨ s.head? = some x := by
  cases s with
  | nil => simp [scanCapture] at h
  | cons c rest =>
    rw [scanCapture] at h
    split at h
    · simp only [] at h
      split at h
      · simp at h
        exact Or.inr (by simp [← h])
      · split at h
        · simp at h
          exact Or.inl h.symm
        · simp at h
          exact Or.inr (by simp [← h])
    · simp at h
      exact Or.inr (by simp [← h])

theorem scanCapture_getLast?_cases (pre suf : List Char) :
    ∀ s x, (scanCapture pre suf s).getLast? = some x →
      x = tick ∨ s.getLast? = some x := by
  intro s
  induction s using scanCapture.induct pre suf with
  | case1 => intro x hx; simp [scanCapture] at hx
  | case2 c rest hpre s1 cap hcap ih =>
    intro x hx
    rw [scanCapture, if_pos hpre] at hx
    simp only [] at hx
    rw [dif_pos hcap] at hx
    by_cases hrest : rest = []
    · subst hrest
      have hsc : scanCapture pre suf [] = [] := by rw [scanCapture]
      rw [hsc] at hx
      simp at hx
      exact Or.inr (by simp [hx])
    · have hne : scanCapture pre suf rest ≠ [] := scanCapture_ne_nil pre suf rest hrest
      rw [getLast?_cons_ne c _ hne] at hx
      rcases ih x hx with h2 | h2
      · exact Or.inl h2
      · rw [getLast?_cons_ne c rest hrest]
        exact Or.inr h2
  | case3 c rest hpre s1 cap hcap hsuf ih =>
    intro x hx
    rw [scanCapture, if_pos hpre] at hx
    simp only [] at hx
    rw [dif_neg hcap, if_pos hsuf] at hx
    have htail : (cap ++ tick :: scanCapture pre suf (List.drop suf.length (List.drop cap.length s1))) ≠ [] := by
      simp
    rw [getLast?_cons_ne tick _ htail, List.getLast?_append] at hx
    set rec := scanCapture pre suf (List.drop suf.length (List.drop cap.length s1)) with hrec
    by_cases hres : rec = []
    · rw [hres] at hx
      simp at hx
      exact Or.inl hx.symm
    · have hg : (tick :: rec).getLast? = rec.getLast? := getLast?_cons_ne tick rec hres
      rw [hg] at hx
      cases hgl : rec.getLast? with
      | none => exact absurd (List.getLast?_eq_none.mp hgl) hres
      | some a =>
        rw [hgl, Option.or_some] at hx
        simp at hx
        subst hx
        have hdne : List.drop suf.length (List.drop cap.length s1) ≠ [] := by
          intro he
          rw [hrec, he] at hgl
          rw [show scanCapture pre suf [] = [] from by rw [scanCapture]] at hgl
          simp at hgl
        rcases ih a hgl with h2 | h2
        · exact Or.inl h2
        · refine Or.inr ?_
          have hsfx : List.drop suf.length (List.drop cap.length s1) <:+ (c :: rest) := by
            refine List.IsSuffix.trans (List.drop_suffix _ _) ?_
            exact List.IsSuffix.trans (List.drop_suffix _ _) (List.drop_suffix _ _)
          rw [getLast?_eq_of_suffix hsfx hdne]
          exact h2
  | case4 c rest hpre s1 cap hcap hsuf ih =>
    intro x hx
    rw [scanCapture, if_pos hpre] at hx
    simp only [] at hx
    rw [dif_neg hcap, if_neg hsuf] at hx
    by_cases hrest : rest = []
    · subst hrest
      rw [show scanCapture pre suf [] = [] from by rw [scanCapture]] at hx
      simp at hx
      exact Or.inr (by simp [hx])
    · have hne : scanCapture pre suf rest ≠ [] := scanCapture_ne_nil pre suf rest hrest
      rw [getLast?_cons_ne c _ hne] at hx
      rcases ih x hx with h2 | h2
      · exact Or.inl h2
      · rw [getLast?_cons_ne c rest hrest]
        exact Or.inr h2
  | case5 c rest hpre ih =>
    intro x hx
    rw [scanCapture, if_neg hpre] at hx
    by_cases hrest : rest = []
    · subst hrest
      rw [show scanCapture pre suf [] = [] from by rw [scanCapture]] at hx
      simp at hx
      exact Or.inr (by simp [hx])
    · have hne : scanCapture pre suf rest ≠ [] := scanCapture_ne_nil pre suf rest hrest
      rw [getLast?_cons_ne c _ hne] at hx
      rcases ih x hx with h2 | h2
      · exact Or.inl h2
      · rw [getLast?_cons_ne c rest hrest]
        exact Or.inr h2

theorem tick_ne_space : tick ≠ ' ' := by decide

theorem scanCapture_chain' (pre suf : List Char) :
    ∀ s, s.Chain' noTwoSp → (scanCapture pre suf s).Chain' noTwoSp := by
  intro s
  induction s using scanCapture.induct pre suf with
  | case1 => intro _; simp [scanCapture]
  | case2 c rest hpre s1 cap hcap ih =>
    intro hc
    rw [scanCapture, if_pos hpre]
    simp only []
    rw [dif_pos hcap]
    have hcc := List.chain'_cons'.mp hc
    rw [List.chain'_cons']
    refine ⟨?_, ih hcc.2⟩
    intro y hy
    rcases scanCapture_head?_cases pre suf rest y (by simpa using hy) with h2 | h2
    · exact noTwoSp_of_right _ _ (h2 ▸ tick_ne_space)
    · exact hcc.1 y (by simp [h2])
  | case3 c rest hpre s1 cap hcap hsuf ih =>
    intro hc
    rw [scanCapture, if_pos hpre]
    simp only []
    rw [dif_neg hcap, if_pos hsuf]
    rw [List.chain'_cons']
    refine ⟨fun y _ => noTwoSp_of_left _ _ tick_ne_space, ?_⟩
    rw [List.chain'_append]
    refine ⟨?_, ?_, ?_⟩
    · have hinf : (cap : List Char) <:+: (c :: rest) := by
        refine List.IsInfix.trans ?_ (List.IsSuffix.isInfix (List.drop_suffix pre.length (c :: rest)))
        exact (List.takeWhile_prefix _).isInfix
      exact hc.infix hinf
    · rw [List.chain'_cons']
      refine ⟨fun y _ => noTwoSp_of_left _ _ tick_ne_space, ?_⟩
      refine ih (hc.suffix ?_)
      refine List.IsSuffix.trans (List.drop_suffix _ _) ?_
      exact List.IsSuffix.trans (List.drop_suffix _ _) (List.drop_suffix _ _)
    · intro x _ y hy
      simp at hy
      exact noTwoSp_of_right _ _ (hy ▸ tick_ne_space)
  | case4 c rest hpre s1 cap hcap hsuf ih =>
    intro hc
    rw [scanCapture, if_pos hpre]
    simp only []
    rw [dif_neg hcap, if_neg hsuf]
    have hcc := List.chain'_cons'.mp hc
    rw [List.chain'_cons']
    refine ⟨?_, ih hcc.2⟩
    intro y hy
    rcases scanCapture_head?_cases pre suf rest y (by simpa using hy) with h2 | h2
    · exact noTwoSp_of_right _ _ (h2 ▸ tick_ne_space)
    · exact hcc.1 y (by simp [h2])
  | case5 c rest hpre ih =>
    intro hc
    rw [scanCapture, if_neg hpre]
    have hcc := List.chain'_cons'.mp hc
    rw [List.chain'_cons']
    refine ⟨?_, ih hcc.2⟩
    intro y hy
    rcases scanCapture_head?_cases pre suf rest y (by simpa using hy) with h2 | h2
    · exact noTwoSp_of_right _ _ (h2 ▸ tick_ne_space)
    · exact hcc.1 y (by simp [h2])

/-- `scanCapture` preserves whitespace-normal form: the only characters it
introduces are backticks, and every boundary it creates is next to a
backtick. -/
theorem scanCapture_normTxt (pre suf : List Char) (s : List Char) (hs : normTxt s) :
    normTxt (scanCapture pre suf s) := by
  obtain ⟨h1, h2, h3, h4⟩ := hs
  refine ⟨?_, scanCapture_chain' pre suf s h2, ?_, ?_⟩
  · intro c hc hw
    rcases scanCapture_mem pre suf c s hc with h | h
    · subst h
      exact absurd hw (by decide)
    · exact h1 c h hw
  · intro hh
    rcases scanCapture_head?_cases pre suf s ' ' hh with h | h
    · exact tick_ne_space h.symm
    · exact h3 h
  · intro hh
    rcases scanCapture_getLast?_cases pre suf s ' ' hh with h | h
    · exact tick_ne_space h.symm
    · exact h4 h

theorem replaceAll_single_no (c0 : Char) (rep : List Char) (hc : c0 ∉ rep) :
    ∀ s, c0 ∉ replaceAll [c0] rep s := by
  intro s
  induction s using replaceAll.induct [c0] rep with
  | case1 => simp [replaceAll]
  | case2 c rest h => simp at h
  | case3 c rest h h2 ih =>
    intro hx
    rw [replaceAll, dif_neg h, if_pos h2] at hx
    rcases List.mem_append.mp hx with h3 | h3
    · exact hc h3
    · exact ih h3
  | case4 c rest h h2 ih =>
    intro hx
    rw [replaceAll, dif_neg h, if_neg h2] at hx
    rcases List.mem_cons.mp hx with h3 | h3
    · subst h3
      exact h2 (by simp [lstarts])
    · exact ih h3

theorem not_mem_replaceAll (pat rep : List Char) (x : Char) (s : List Char)
    (hx : x ∉ rep) (hs : x ∉ s) : x ∉ replaceAll pat rep s := by
  intro h
  rcases replaceAll_mem pat rep x s h with h1 | h1
  · exact hx h1
  · exact hs h1

theorem not_mem_scanCapture (pre suf : List Char) (x : Char) (s : List Char)
    (hx : x ≠ tick) (hs : x ∉ s) : x ∉ scanCapture pre suf s := by
  intro h
  rcases scanCapture_mem pre suf x s h with h1 | h1
  · exact hx h1
  · exact hs h1

theorem escapeStage_no_angle (s : List Char) :
    '<' ∉ escapeStage s ∧ '>' ∉ escapeStage s := by
  unfold escapeStage
  refine ⟨?_, ?_⟩
  · exact not_mem_replaceAll _ _ _ _ (by decide)
      (replaceAll_single_no '<' _ (by decide) s)
  · exact replaceAll_single_no '>' _ (by decide) _

theorem escapeStage_normTxt (s : List Char) (hs : normTxt s) :
    normTxt (escapeStage s) :=
  replaceAll_normTxt _ _ (by decide) (by decide) _
    (replaceAll_normTxt _ _ (by decide) (by decide) _ hs)

theorem ctagStage_normTxt (s : List Char) (hs : normTxt s) :
    normTxt (ctagStage s) :=
  replaceAll_normTxt _ _ (by decide) (by decide) _
    (replaceAll_normTxt _ _ (by decide) (by decide) _ hs)

theorem ctagStage_no_angle (s : List Char) (h1 : '<' ∉ s) (h2 : '>' ∉ s) :
    '<' ∉ ctagStage s ∧ '>' ∉ ctagStage s := by
  unfold ctagStage
  refine ⟨?_, ?_⟩
  · exact not_mem_replaceAll _ _ _ _ (by decide)
      (not_mem_replaceAll _ _ _ _ (by decide) h1)
  · exact not_mem_replaceAll _ _ _ _ (by decide)
      (not_mem_replaceAll _ _ _ _ (by decide) h2)

theorem crefStage_normTxt (s : List Char) (hs : normTxt s) :
    normTxt (crefStage s) :=
  scanCapture_normTxt _ _ _ (scanCapture_normTxt _ _ _ (scanCapture_normTxt _ _ _ hs))

theorem crefStage_no_angle (s : List Char) (h1 : '<' ∉ s) (h2 : '>' ∉ s) :
    '<' ∉ crefStage s ∧ '>' ∉ crefStage s := by
  unfold crefStage
  refine ⟨?_, ?_⟩
  · exact not_mem_scanCapture _ _ _ _ (by decide)
      (not_mem_scanCapture _ _ _ _ (by decide)
        (not_mem_scanCapture _ _ _ _ (by decide) h1))
  · exact not_mem_scanCapture _ _ _ _ (by decide)
      (not_mem_scanCapture _ _ _ _ (by decide)
        (not_mem_scanCapture _ _ _ _ (by decide) h2))

/-- `clean_xml_text` always yields whitespace-normalized text with no raw
angle bracket: every `<` and `>` is first escaped, and the subsequent doc
tag rewrites introduce only backticks and characters already present. -/
theorem clean_xml_text_props (t : Option (List Char)) :
    normTxt (clean_xml_text t) ∧
    '<' ∉ clean_xml_text t ∧ '>' ∉ clean_xml_text t := by
  have hnil : normTxt ([] : List Char) := ⟨by simp, by simp, by simp, by simp⟩
  cases t with
  | none => exact ⟨hnil, by simp [clean_xml_text], by simp [clean_xml_text]⟩
  | some s =>
    rw [clean_xml_text]
    split
    · exact ⟨hnil, by simp, by simp⟩
    · have n1 := collapseWs_pyStrip_normTxt s
      have n2 := escapeStage_normTxt _ n1
      have a2 := escapeStage_no_angle (collapseWs (pyStrip s))
      have n3 := ctagStage_normTxt _ n2
      have a3 := ctagStage_no_angle _ a2.1 a2.2
      have n4 := crefStage_normTxt _ n3
      have a4 := crefStage_no_angle _ a3.1 a3.2
      exact ⟨scanCapture_normTxt _ _ _ n4,
        not_mem_scanCapture _ _ _ _ (by decide) a4.1,
        not_mem_scanCapture _ _ _ _ (by decide) a4.2⟩

/-- **C5 counterexample.** The simple generator's `clean_text` performs no
angle-bracket escaping: the extracted text of a present summary `List<T>`
still contains a raw `<` (and `>`), not the entity forms — so "every angle
bracket in the extracted text is escaped to its entity form" fails for
generate-api-simple.py. -/
theorem clean_text_does_not_escape_angle_brackets :
    clean_text (some ("List<T>".data)) = "List<T>".data ∧
    '<' ∈ clean_text (some ("List<T>".data)) ∧
    '>' ∈ clean_text (some ("List<T>".data)) := by
  refine ⟨by decide, by decide, by decide⟩

/-- **C5** (amended). For every present text-bearing sub-element, both
cleaners collapse every run of whitespace (including newlines) to a single
space and trim both ends (`normTxt`); angle-bracket escaping is performed
only by the versioned generator's `clean_xml_text`, whose output never
contains a raw `<` or `>` — each is escaped to its entity form and the
escaped doc tags `<c>`, `</c>`, `<see cref=.../>`, `<paramref .../>` are
then rewritten to backtick code spans — while the simple generator's
`clean_text` leaves angle brackets unchanged. -/
theorem extracted_text_collapsed_trimmed_escaped_only_versioned (t : List Char) :
    normTxt (clean_text (some t)) ∧
    normTxt (clean_xml_text (some t)) ∧
    '<' ∉ clean_xml_text (some t) ∧ '>' ∉ clean_xml_text (some t) := by
  have h := clean_xml_text_props (some t)
  exact ⟨clean_text_normTxt _, h.1, h.2.1, h.2.2⟩
